import Mathlib

/-!
Verification of the imgsieve duplicate-image sieve (src/imgsieve.py).

The development shallowly embeds the program: paths are strings,
fingerprints (imagehash values, fixed-size bit vectors) are natural
numbers, Python dicts are insertion-ordered association lists, the
image-hashing library is an abstract family of functions from decoded
pixel data to fingerprints, and filesystem effects (Image.open,
os.remove) are recorded in an explicit event trace.  Python exceptions
(ValueError for an unknown method or filter mode, decoding failures
raised by Image.open) are modelled with Except.
-/

namespace Imgsieve

/-- A filesystem path (Python str). -/
abbrev Path := String

/-- A fingerprint value.  The imagehash library returns fixed-size bit
vectors; within one run they all have the same size, and the hex form
produced by str() is injective on them, so both the ImageHash keys of
image_hashes and the str(image_hash) keys of duplicates are modelled by
the same numeric value. -/
abbrev Hash := Nat

/-- Decoded pixel data of an image, as produced by PIL Image.open:
dimensions plus the pixel grid (img.size[0] is width, img.size[1] is
height). -/
structure Image where
  width : Nat
  height : Nat
  pixels : List Nat
deriving DecidableEq

/-- The closed set of hashing algorithms reachable from the dispatch in
hash_images (lines 56-71 of imgsieve.py): imagehash.average_hash, phash,
phash_simple, dhash, dhash_vertical, whash and whash with the db4 mode. -/
inductive HashAlg where
  | ahash
  | phash
  | phash_simple
  | dhash
  | dhash_vertical
  | whash_haar
  | whash_db4
deriving DecidableEq

/-- The exceptions the program can raise: the two ValueErrors in
hash_images and filter_duplicates, the decode failure of Image.open,
the ValueError of max() on an empty sequence, and the ValueError of
list.remove when the element is absent. -/
inductive SieveError where
  | invalidMethod (method : String)
  | invalidMode (mode : String)
  | decodeError (path : Path)
  | maxEmpty
  | removeMissing
deriving DecidableEq

/-- Observable filesystem effects: opening an image for decoding
(Image.open) and deleting a file (os.remove). -/
inductive Event where
  | imageOpen (path : Path)
  | osRemove (path : Path)
deriving DecidableEq

/-- Whether an event is a file removal. -/
def Event.isRemove : Event → Bool
  | .osRemove _ => true
  | .imageOpen _ => false

/-- Equality of Except values is decidable when both components have
decidable equality (used to evaluate concrete runs). -/
instance decEqExcept {ε α : Type} [DecidableEq ε] [DecidableEq α] :
    DecidableEq (Except ε α) := fun a b =>
  match a, b with
  | Except.ok x, Except.ok y =>
    if h : x = y then isTrue (by rw [h])
    else isFalse (fun he => by cases he; exact h rfl)
  | Except.ok _, Except.error _ => isFalse (fun he => by cases he)
  | Except.error _, Except.ok _ => isFalse (fun he => by cases he)
  | Except.error e, Except.error f =>
    if h : e = f then isTrue (by rw [h])
    else isFalse (fun he => by cases he; exact h rfl)

/-- A Python dict from fingerprints to lists of paths, as an
insertion-ordered association list. -/
abbrev Dict := List (Hash × List Path)

/-- Dict lookup: d[h] when present, none otherwise. -/
def dict_find (m : Dict) (h : Hash) : Option (List Path) :=
  match m with
  | [] => none
  | kv :: rest => if kv.1 = h then some kv.2 else dict_find rest h

/-- Dict update of an existing key: d[h] = v (every binding of h is
rewritten; keys are never duplicated in the states the program builds). -/
def dict_set (m : Dict) (h : Hash) (v : List Path) : Dict :=
  match m with
  | [] => []
  | kv :: rest =>
    if kv.1 = h then (kv.1, v) :: dict_set rest h v else kv :: dict_set rest h v

/-- Python dict.setdefault(h, d): returns the stored value and the
(possibly extended) dict; a missing key is bound to d at the end,
preserving insertion order. -/
def dict_setdefault (m : Dict) (h : Hash) (d : List Path) : List Path × Dict :=
  match dict_find m h with
  | some v => (v, m)
  | none => (d, m ++ [(h, d)])

/-- The string dispatch at the top of hash_images (lines 56-71),
resolving a method name to a hashing algorithm; None models the
ValueError branch. -/
def hash_dispatch (method : String) : Option HashAlg :=
  if method = "ahash" then some HashAlg.ahash
  else if method = "phash" then some HashAlg.phash
  else if method = "phash_simple" then some HashAlg.phash_simple
  else if method = "dhash" ∨ method = "dhash_horizontal" then some HashAlg.dhash
  else if method = "dhash_vertical" then some HashAlg.dhash_vertical
  else if method = "whash" ∨ method = "whash-haar" then some HashAlg.whash_haar
  else if method = "whash-db4" then some HashAlg.whash_db4
  else none

/-- One iteration of the loop body of hash_images (lines 76-83) after a
successful decode of image_path to img:

    image_hash = hash_function(img, hash_size)
    if image_hashes.setdefault(image_hash, []):
        duplicate = duplicates.setdefault(
            str(image_hash), image_hashes[image_hash][:])
        duplicate.append(image_path)
    image_hashes[image_hash].append(image_path)

The slice copy [:] is the identity under value semantics, and the
in-place appends become dict_set with the extended list. -/
def hash_step (hf : Image → Nat → Hash) (hash_size : Nat) (img : Image) (p : Path)
    (ih dup : Dict) : Dict × Dict :=
  let h := hf img hash_size
  let sd := dict_setdefault ih h []
  let existing := sd.1
  let ih1 := sd.2
  if existing = [] then
    (dict_set ih1 h ((dict_find ih1 h).getD [] ++ [p]), dup)
  else
    let sdd := dict_setdefault dup h ((dict_find ih1 h).getD [])
    let dup2 := dict_set sdd.2 h (sdd.1 ++ [p])
    (dict_set ih1 h ((dict_find ih1 h).getD [] ++ [p]), dup2)

/-- The loop of hash_images over the remaining paths, threading the two
dicts and recording every Image.open.  A failed decode raises
immediately, discarding the partial state. -/
def hash_loop (hf : Image → Nat → Hash) (decode : Path → Option Image) (hash_size : Nat) :
    List Path → Dict → Dict → List Event × Except SieveError (Dict × Dict)
  | [], ih, dup => ([], Except.ok (ih, dup))
  | p :: rest, ih, dup =>
    match decode p with
    | none => ([Event.imageOpen p], Except.error (SieveError.decodeError p))
    | some img =>
      let st := hash_step hf hash_size img p ih dup
      let out := hash_loop hf decode hash_size rest st.1 st.2
      (Event.imageOpen p :: out.1, out.2)

/-- hash_images (lines 42-85) with its effect trace: dispatch the method
name, then hash every path in turn, returning the pair of the
image_hashes dict and the duplicates dict.  The environment supplies the
imagehash algorithm family and the decoder. -/
def traced_hash_images (algs : HashAlg → Image → Nat → Hash)
    (decode : Path → Option Image) (image_paths : List Path)
    (method : String) (hash_size : Nat) :
    List Event × Except SieveError (Dict × Dict) :=
  match hash_dispatch method with
  | none => ([], Except.error (SieveError.invalidMethod method))
  | some alg => hash_loop (algs alg) decode hash_size image_paths [] []

/-- The value returned (or exception raised) by hash_images. -/
def hash_images (algs : HashAlg → Image → Nat → Hash)
    (decode : Path → Option Image) (image_paths : List Path)
    (method : String) (hash_size : Nat) : Except SieveError (Dict × Dict) :=
  (traced_hash_images algs decode image_paths method hash_size).2

/-- Python max(duplicates, key=resolution) after its first element has
been consumed: best is the current maximum, bres its key.  A later
element replaces the current maximum only when its key is strictly
greater, so the first element attaining the overall maximum wins.  Every
key evaluation opens the image and can fail with a decode error. -/
def traced_max_res (res : Path → Option Nat) :
    Path → Nat → List Path → List Event × Except SieveError Path
  | best, _, [] => ([], Except.ok best)
  | best, bres, p :: ps =>
    match res p with
    | none => ([Event.imageOpen p], Except.error (SieveError.decodeError p))
    | some r =>
      let out := traced_max_res res (if bres < r then p else best)
        (if bres < r then r else bres) ps
      (Event.imageOpen p :: out.1, out.2)

/-- Python list.remove(x): delete the first occurrence of x; none models
the ValueError when x is absent. -/
def list_remove (x : Path) : List Path → Option (List Path)
  | [] => none
  | y :: ys => if y = x then some ys else (list_remove x ys).map (fun l => y :: l)

/-- filter_duplicates (lines 88-109) with its effect trace.  Under the
resolution mode it computes max(duplicates, key=resolution) - where
resolution(p) opens p and returns width times height - removes that
element in place and returns the rest; any other mode raises ValueError
before touching an image.  An empty list makes max raise. -/
def traced_filter_duplicates (res : Path → Option Nat) (duplicates : List Path)
    (mode : String) : List Event × Except SieveError (List Path) :=
  if mode = "resolution" then
    match duplicates with
    | [] => ([], Except.error SieveError.maxEmpty)
    | p :: ps =>
      match res p with
      | none => ([Event.imageOpen p], Except.error (SieveError.decodeError p))
      | some r =>
        let out := traced_max_res res p r ps
        match out.2 with
        | Except.error e => (Event.imageOpen p :: out.1, Except.error e)
        | Except.ok best =>
          match list_remove best duplicates with
          | none => (Event.imageOpen p :: out.1, Except.error SieveError.removeMissing)
          | some remaining => (Event.imageOpen p :: out.1, Except.ok remaining)
  else ([], Except.error (SieveError.invalidMode mode))

/-- The value returned (or exception raised) by filter_duplicates. -/
def filter_duplicates (res : Path → Option Nat) (duplicates : List Path)
    (mode : String) : Except SieveError (List Path) :=
  (traced_filter_duplicates res duplicates mode).2

/-- The filtering loop of main (lines 147-149): one filter_duplicates
call per duplicates entry, on a copy of the stored list; the first
exception aborts the loop. -/
def traced_filter_all (res : Path → Option Nat) (groups : List (Hash × List Path))
    (mode : String) : List Event × Except SieveError (List (List Path)) :=
  match groups with
  | [] => ([], Except.ok [])
  | g :: rest =>
    let fd := traced_filter_duplicates res g.2 mode
    match fd.2 with
    | Except.error e => (fd.1, Except.error e)
    | Except.ok t =>
      let out := traced_filter_all res rest mode
      match out.2 with
      | Except.error e => (fd.1 ++ out.1, Except.error e)
      | Except.ok ts => (fd.1 ++ out.1, Except.ok (t :: ts))

/-- The filter loop results alone. -/
def filter_all (res : Path → Option Nat) (groups : List (Hash × List Path))
    (mode : String) : Except SieveError (List (List Path)) :=
  (traced_filter_all res groups mode).2

/-- Python str.lstrip() with no argument: drop leading whitespace. -/
def py_lstrip (s : String) : String :=
  String.mk (s.data.dropWhile Char.isWhitespace)

/-- Python str.lower(): lowercase each character. -/
def py_lower (s : String) : String :=
  String.mk (s.data.map Char.toLower)

/-- Python str.startswith(pre), as a test on the character sequences. -/
def py_startswith (s pre : String) : Bool :=
  pre.data.isPrefixOf s.data

/-- The confirmation test of main, line 162:
confirm_delete.lstrip().lower().startswith(the letter y). -/
def confirm_accepts (confirm_delete : String) : Bool :=
  py_startswith (py_lower (py_lstrip confirm_delete)) "y"

/-- main from line 133 on (after find_images), with its effect trace:
return early on no images or no duplicates; hash; filter each duplicates
entry on a slice copy; then remove every marked file, but only when the
confirmation input is accepted.  The printing statements have no effect
on the state and are dropped. -/
def traced_sieve (algs : HashAlg → Image → Nat → Hash)
    (decode : Path → Option Image) (image_paths : List Path)
    (method : String) (hash_size : Nat) (filter_mode : String)
    (confirm_delete : String) : List Event × Except SieveError Unit :=
  if image_paths.isEmpty then ([], Except.ok ())
  else
    let hi := traced_hash_images algs decode image_paths method hash_size
    match hi.2 with
    | Except.error e => (hi.1, Except.error e)
    | Except.ok st =>
      let duplicates := st.2
      if duplicates.isEmpty then (hi.1, Except.ok ())
      else
        let res := fun p => (decode p).map (fun img => img.width * img.height)
        let fa := traced_filter_all res duplicates filter_mode
        match fa.2 with
        | Except.error e => (hi.1 ++ fa.1, Except.error e)
        | Except.ok trash =>
          if trash.isEmpty then (hi.1 ++ fa.1, Except.ok ())
          else if confirm_accepts confirm_delete then
            (hi.1 ++ fa.1 ++ (trash.flatten.map Event.osRemove), Except.ok ())
          else (hi.1 ++ fa.1, Except.ok ())

/-- Python str.endswith(suffix), as a test on the character sequences;
like the source it is case sensitive. -/
def ends_with (s suffix : String) : Bool :=
  suffix.data.isSuffixOf s.data

/-- The extension test of find_images (lines 29-33). -/
def has_image_ext (file : String) : Bool :=
  ends_with file ".jpg" || ends_with file ".jpeg" || ends_with file ".png" ||
    ends_with file ".bmp" || ends_with file ".gif"

/-- os.path.join for a directory and a file name. -/
def path_join (root file : String) : String :=
  root ++ "/" ++ file

/-- find_images (lines 13-39) over the triples produced by os.walk,
each reduced to its root and file list: collect the image files of each
visited directory, stopping after the first directory when recursive is
false. -/
def find_images (walk : List (String × List String)) (recursive : Bool) : List Path :=
  match walk with
  | [] => []
  | rf :: rest =>
    ((rf.2.filter has_image_ext).map (fun file => path_join rf.1 file)) ++
      (if recursive then find_images rest recursive else [])

/-- A heap of list objects for the aliasing behavior of
filter_duplicates: references are indices, the store maps each reference
to the list it currently holds. -/
abbrev ListStore := Nat → List Path

/-- filter_duplicates under reference semantics: the argument is a
reference into the store; duplicates.remove(highest_res) mutates the
referenced list in place, and the function returns the very same
reference. -/
def filter_duplicates_ref (res : Path → Option Nat) (store : ListStore) (r : Nat)
    (mode : String) : Except SieveError (ListStore × Nat) :=
  match (traced_filter_duplicates res (store r) mode).2 with
  | Except.error e => Except.error e
  | Except.ok remaining =>
    Except.ok (fun q => if q = r then remaining else store q, r)

/-- The paths of pre whose fingerprint is h, in encounter order. -/
def groupOf (fp : Path → Hash) (pre : List Path) (h : Hash) : List Path :=
  pre.filter (fun q => fp q == h)

/-- A list as an optional value: none for the empty list.  This is the
shape of the entries of image_hashes, whose setdefault never leaves an
empty list behind. -/
def listToOpt (l : List Path) : Option (List Path) :=
  if l = [] then none else some l

/-- The loop invariant of hash_images over the processed prefix pre:
image_hashes maps each fingerprint to the nonempty list of its bearers
in encounter order, and duplicates holds exactly the fingerprints seen
at least twice, each with its full bearer list. -/
def HashInv (fp : Path → Hash) (pre : List Path) (ih dup : Dict) : Prop :=
  (∀ h, dict_find ih h = listToOpt (groupOf fp pre h)) ∧
  (∀ h, dict_find dup h =
    if 2 ≤ (groupOf fp pre h).length then some (groupOf fp pre h) else none) ∧
  (∀ kv ∈ dup, 2 ≤ (groupOf fp pre kv.1).length)

/-- The grouper partition law for a duplicates dict, relative to a
fingerprint function and the input order: the present keys are exactly
the fingerprints of multiplicity at least two, each bound to the full
encounter-ordered list of its bearers; every group has at least two
members; and groups of different fingerprints never share a path. -/
def GrouperLaw (fp : Path → Hash) (paths : List Path) (dup : Dict) : Prop :=
  (∀ h : Hash, (dict_find dup h).isSome ↔ 2 ≤ (groupOf fp paths h).length) ∧
  (∀ h g, dict_find dup h = some g → g = groupOf fp paths h) ∧
  (∀ h g, dict_find dup h = some g → 2 ≤ g.length) ∧
  (∀ h1 h2 g1 g2 p, h1 ≠ h2 → dict_find dup h1 = some g1 →
    dict_find dup h2 = some g2 → p ∈ g1 → p ∉ g2)

/-- Concrete pixel data for evaluating the theorems on small runs. -/
def cImg : Image := ⟨1, 1, [0]⟩

/-- A hashing algorithm family that collapses every image to 0. -/
def cAlgs : HashAlg → Image → Nat → Hash := fun _ _ _ => 0

/-- A hashing algorithm family that reads off the width of the image. -/
def cAlgsW : HashAlg → Image → Nat → Hash := fun _ img _ => img.width

/-- A decoder that accepts every path. -/
def cDecode : Path → Option Image := fun _ => some cImg

/-- A total decoder whose image width is the length of the path. -/
def cDecT : Path → Image := fun p => ⟨p.length, 1, []⟩

/-- A decoder that fails on one particular path. -/
def cDecBad : Path → Option Image :=
  fun p => if p = "bad.gif" then none else some cImg

/-- A decoder accepting a single path, elsewhere failing. -/
def cDec2 : Path → Option Image :=
  fun p => if p = "a.jpg" then some cImg else none

/-- A concrete store holding one two-member list at reference 0. -/
def cStore : ListStore := fun i => if i = 0 then ["a", "bb"] else []

/-! ### Association list lemmas -/

lemma dict_find_set (m : Dict) (h : Hash) (v : List Path) (h' : Hash) :
    dict_find (dict_set m h v) h' =
      if h' = h then (dict_find m h').map (fun _ => v) else dict_find m h' := by
  induction m with
  | nil => by_cases hh : h' = h <;> simp [dict_set, dict_find, hh]
  | cons kv rest ihm =>
    by_cases h1 : kv.1 = h <;> by_cases h2 : h' = h <;> by_cases h3 : kv.1 = h' <;>
      simp [dict_set, dict_find, h1, h2, h3, ihm] <;> simp_all

lemma dict_find_append_some {m : Dict} {h' : Hash} {w : List Path} (h : Hash)
    (v : List Path) (hw : dict_find m h' = some w) :
    dict_find (m ++ [(h, v)]) h' = some w := by
  induction m with
  | nil => simp [dict_find] at hw
  | cons kv rest ihm =>
    simp only [List.cons_append, dict_find] at hw ⊢
    by_cases h1 : kv.1 = h'
    · rw [if_pos h1] at hw ⊢; exact hw
    · rw [if_neg h1] at hw ⊢; exact ihm hw

lemma dict_find_append_none {m : Dict} {h' : Hash} (h : Hash) (v : List Path)
    (hw : dict_find m h' = none) :
    dict_find (m ++ [(h, v)]) h' = if h' = h then some v else none := by
  induction m with
  | nil =>
    simp only [List.nil_append, dict_find]
    by_cases hh : h' = h
    · subst hh; simp
    · rw [if_neg (fun e => hh e.symm), if_neg hh]
  | cons kv rest ihm =>
    simp only [List.cons_append, dict_find] at hw ⊢
    by_cases h1 : kv.1 = h'
    · rw [if_pos h1] at hw; exact absurd hw (by simp)
    · rw [if_neg h1] at hw ⊢; exact ihm hw

lemma dict_find_append_ne {m : Dict} {h h' : Hash} (v : List Path) (hne : h' ≠ h) :
    dict_find (m ++ [(h, v)]) h' = dict_find m h' := by
  cases hF : dict_find m h' with
  | some w => exact dict_find_append_some h v hF
  | none => rw [dict_find_append_none h v hF, if_neg hne]

lemma dict_set_mem_key {m : Dict} {h : Hash} {v : List Path} {kv : Hash × List Path}
    (hm : kv ∈ dict_set m h v) : ∃ kv0 ∈ m, kv.1 = kv0.1 := by
  induction m with
  | nil => simp [dict_set] at hm
  | cons kv1 rest ihm =>
    simp only [dict_set] at hm
    by_cases h1 : kv1.1 = h
    · rw [if_pos h1] at hm
      rcases List.mem_cons.1 hm with he | ht
      · exact ⟨kv1, List.mem_cons_self kv1 rest, by rw [he]⟩
      · obtain ⟨kv0, hkv0, he⟩ := ihm ht
        exact ⟨kv0, List.mem_cons_of_mem _ hkv0, he⟩
    · rw [if_neg h1] at hm
      rcases List.mem_cons.1 hm with he | ht
      · exact ⟨kv1, List.mem_cons_self kv1 rest, by rw [he]⟩
      · obtain ⟨kv0, hkv0, he⟩ := ihm ht
        exact ⟨kv0, List.mem_cons_of_mem _ hkv0, he⟩

/-! ### groupOf and listToOpt lemmas -/

lemma groupOf_append_self {fp : Path → Hash} {pre : List Path} {p : Path} {h : Hash}
    (hp : fp p = h) : groupOf fp (pre ++ [p]) h = groupOf fp pre h ++ [p] := by
  simp [groupOf, List.filter_append, hp]

lemma groupOf_append_ne {fp : Path → Hash} {pre : List Path} {p : Path} {h : Hash}
    (hp : fp p ≠ h) : groupOf fp (pre ++ [p]) h = groupOf fp pre h := by
  simp [groupOf, List.filter_append, hp]

lemma groupOf_length_mono (fp : Path → Hash) (pre : List Path) (p : Path) (h : Hash) :
    (groupOf fp pre h).length ≤ (groupOf fp (pre ++ [p]) h).length := by
  by_cases hp : fp p = h
  · rw [groupOf_append_self hp]; simp
  · rw [groupOf_append_ne hp]

lemma listToOpt_eq_none {l : List Path} : listToOpt l = none ↔ l = [] := by
  by_cases h : l = [] <;> simp [listToOpt, h]

lemma listToOpt_eq_some {l w : List Path} : listToOpt l = some w ↔ l = w ∧ l ≠ [] := by
  by_cases h : l = [] <;> simp [listToOpt, h]

/-! ### hash_step case equations and invariant preservation -/

lemma hash_step_eq_new {hf : Image → Nat → Hash} {size : Nat} {img : Image} {p : Path}
    {ih dup : Dict} (hA : dict_find ih (hf img size) = none) :
    hash_step hf size img p ih dup =
      (dict_set (ih ++ [(hf img size, [])]) (hf img size) [p], dup) := by
  simp [hash_step, dict_setdefault, hA, dict_find_append_none (hf img size) [] hA]

lemma hash_step_eq_old_first {hf : Image → Nat → Hash} {size : Nat} {img : Image}
    {p : Path} {ih dup : Dict} {g : List Path}
    (hA : dict_find ih (hf img size) = some g) (hg : g ≠ [])
    (hB : dict_find dup (hf img size) = none) :
    hash_step hf size img p ih dup =
      (dict_set ih (hf img size) (g ++ [p]),
       dict_set (dup ++ [(hf img size, g)]) (hf img size) (g ++ [p])) := by
  simp [hash_step, dict_setdefault, hA, hB, hg]

lemma hash_step_eq_old_more {hf : Image → Nat → Hash} {size : Nat} {img : Image}
    {p : Path} {ih dup : Dict} {g dg : List Path}
    (hA : dict_find ih (hf img size) = some g) (hg : g ≠ [])
    (hB : dict_find dup (hf img size) = some dg) :
    hash_step hf size img p ih dup =
      (dict_set ih (hf img size) (g ++ [p]),
       dict_set dup (hf img size) (dg ++ [p])) := by
  simp [hash_step, dict_setdefault, hA, hB, hg]

lemma hash_step_inv {hf : Image → Nat → Hash} {size : Nat} {dec : Path → Image}
    {pre : List Path} {ih dup : Dict} (p : Path)
    (hinv : HashInv (fun q => hf (dec q) size) pre ih dup) :
    HashInv (fun q => hf (dec q) size) (pre ++ [p])
      (hash_step hf size (dec p) p ih dup).1 (hash_step hf size (dec p) p ih dup).2 := by
  obtain ⟨I1, I2, I3⟩ := hinv
  cases hA : dict_find ih (hf (dec p) size) with
  | none =>
    have hpre : groupOf (fun q => hf (dec q) size) pre (hf (dec p) size) = [] :=
      listToOpt_eq_none.mp ((I1 (hf (dec p) size)).symm.trans hA)
    rw [hash_step_eq_new hA]
    refine ⟨fun h => ?_, fun h => ?_, fun kv hkv => ?_⟩
    · by_cases hh : h = hf (dec p) size
      · subst hh
        rw [dict_find_set, if_pos rfl, dict_find_append_none _ _ hA, if_pos rfl,
          groupOf_append_self rfl, hpre]
        simp [listToOpt]
      · rw [dict_find_set, if_neg hh, dict_find_append_ne _ hh,
          groupOf_append_ne (Ne.symm hh)]
        exact I1 h
    · by_cases hh : h = hf (dec p) size
      · subst hh
        rw [groupOf_append_self rfl, hpre]
        have h2 := I2 (hf (dec p) size)
        rw [hpre] at h2
        simpa using h2
      · rw [groupOf_append_ne (Ne.symm hh)]
        exact I2 h
    · exact le_trans (I3 kv hkv) (groupOf_length_mono _ pre p kv.1)
  | some g =>
    obtain ⟨hgr, hgne0⟩ := listToOpt_eq_some.mp ((I1 (hf (dec p) size)).symm.trans hA)
    have hgne : g ≠ [] := hgr ▸ hgne0
    have hglen : 1 ≤ g.length := List.length_pos.mpr hgne
    cases hB : dict_find dup (hf (dec p) size) with
    | none =>
      rw [hash_step_eq_old_first hA hgne hB]
      refine ⟨fun h => ?_, fun h => ?_, fun kv hkv => ?_⟩
      · by_cases hh : h = hf (dec p) size
        · subst hh
          rw [dict_find_set, if_pos rfl, hA, groupOf_append_self rfl, hgr]
          simp [listToOpt]
        · rw [dict_find_set, if_neg hh, groupOf_append_ne (Ne.symm hh)]
          exact I1 h
      · by_cases hh : h = hf (dec p) size
        · subst hh
          rw [dict_find_set, if_pos rfl, dict_find_append_none _ _ hB, if_pos rfl,
            groupOf_append_self rfl, hgr,
            if_pos (by simp only [List.length_append, List.length_singleton]; omega)]
          rfl
        · rw [dict_find_set, if_neg hh, dict_find_append_ne _ hh,
            groupOf_append_ne (Ne.symm hh)]
          exact I2 h
      · obtain ⟨kv0, hkv0, hke⟩ := dict_set_mem_key hkv
        rcases List.mem_append.1 hkv0 with hin | hnew
        · exact hke ▸ le_trans (I3 kv0 hin) (groupOf_length_mono _ pre p kv0.1)
        · have he : kv0 = (hf (dec p) size, g) := by simpa using hnew
          rw [hke, he, groupOf_append_self rfl, hgr]
          simp only [List.length_append, List.length_singleton]
          omega
    | some dg =>
      have h2 := I2 (hf (dec p) size)
      rw [hB] at h2
      by_cases hc : 2 ≤ (groupOf (fun q => hf (dec q) size) pre (hf (dec p) size)).length
      · rw [if_pos hc] at h2
        have hdg : dg = g := by
          have := Option.some.inj h2
          exact this.trans hgr
        subst hdg
        rw [hash_step_eq_old_more hA hgne hB]
        refine ⟨fun h => ?_, fun h => ?_, fun kv hkv => ?_⟩
        · by_cases hh : h = hf (dec p) size
          · subst hh
            rw [dict_find_set, if_pos rfl, hA, groupOf_append_self rfl, hgr]
            simp [listToOpt]
          · rw [dict_find_set, if_neg hh, groupOf_append_ne (Ne.symm hh)]
            exact I1 h
        · by_cases hh : h = hf (dec p) size
          · subst hh
            rw [dict_find_set, if_pos rfl, hB, groupOf_append_self rfl, hgr,
              if_pos (by simp only [List.length_append, List.length_singleton]; omega)]
            rfl
          · rw [dict_find_set, if_neg hh, groupOf_append_ne (Ne.symm hh)]
            exact I2 h
        · obtain ⟨kv0, hkv0, hke⟩ := dict_set_mem_key hkv
          exact hke ▸ le_trans (I3 kv0 hkv0) (groupOf_length_mono _ pre p kv0.1)
      · rw [if_neg hc] at h2
        exact absurd h2 (by simp)

/-! ### hash_loop lemmas -/

lemma hashInv_nil (fp : Path → Hash) : HashInv fp [] [] [] := by
  refine ⟨fun h => ?_, fun h => ?_, by simp⟩
  · simp [dict_find, groupOf, listToOpt]
  · simp [dict_find, groupOf]

lemma hash_loop_ok {hf : Image → Nat → Hash} {size : Nat} {dec : Path → Image} :
    ∀ (rest pre : List Path) (ih dup : Dict),
      HashInv (fun q => hf (dec q) size) pre ih dup →
      ∃ ih2 dup2,
        hash_loop hf (fun q => some (dec q)) size rest ih dup =
          (rest.map Event.imageOpen, Except.ok (ih2, dup2)) ∧
        HashInv (fun q => hf (dec q) size) (pre ++ rest) ih2 dup2 := by
  intro rest
  induction rest with
  | nil =>
    intro pre ih dup hinv
    exact ⟨ih, dup, by simp [hash_loop], by simpa using hinv⟩
  | cons p rest ihr =>
    intro pre ih dup hinv
    obtain ⟨ih2, dup2, heq, hinv2⟩ := ihr (pre ++ [p]) _ _ (hash_step_inv p hinv)
    refine ⟨ih2, dup2, ?_, ?_⟩
    · simp [hash_loop, heq]
    · rw [List.append_assoc] at hinv2
      simpa using hinv2

lemma hash_loop_decode_error {hf : Image → Nat → Hash} {size : Nat}
    {decode : Path → Option Image} :
    ∀ (paths : List Path) (ih dup : Dict), (∃ p ∈ paths, decode p = none) →
      ∃ q ∈ paths, decode q = none ∧
        (hash_loop hf decode size paths ih dup).2 =
          Except.error (SieveError.decodeError q) := by
  intro paths
  induction paths with
  | nil => intro ih dup hex; simp at hex
  | cons p rest ihr =>
    intro ih dup hex
    cases hd : decode p with
    | none => exact ⟨p, List.mem_cons_self p rest, hd, by simp [hash_loop, hd]⟩
    | some img =>
      have hex2 : ∃ q ∈ rest, decode q = none := by
        obtain ⟨q, hq, hqn⟩ := hex
        rcases List.mem_cons.1 hq with he | ht
        · exact absurd hqn (by rw [he, hd]; simp)
        · exact ⟨q, ht, hqn⟩
      obtain ⟨q, hq, hqn, heq⟩ := ihr (hash_step hf size img p ih dup).1
        (hash_step hf size img p ih dup).2 hex2
      exact ⟨q, List.mem_cons_of_mem _ hq, hqn, by simp [hash_loop, hd, heq]⟩

lemma hash_loop_no_remove {hf : Image → Nat → Hash} {size : Nat}
    {decode : Path → Option Image} :
    ∀ (paths : List Path) (ih dup : Dict),
      ((hash_loop hf decode size paths ih dup).1.all
        (fun e => !e.isRemove)) = true := by
  intro paths
  induction paths with
  | nil => intro ih dup; simp [hash_loop]
  | cons p rest ihr =>
    intro ih dup
    cases hd : decode p with
    | none => simp [hash_loop, hd, Event.isRemove]
    | some img =>
      have h2 := ihr (hash_step hf size img p ih dup).1 (hash_step hf size img p ih dup).2
      simp [hash_loop, hd, Event.isRemove] at h2 ⊢
      exact h2

lemma hash_loop_congr {hf : Image → Nat → Hash} {size : Nat}
    {d1 d2 : Path → Option Image} :
    ∀ (paths : List Path) (ih dup : Dict), (∀ p ∈ paths, d1 p = d2 p) →
      hash_loop hf d1 size paths ih dup = hash_loop hf d2 size paths ih dup := by
  intro paths
  induction paths with
  | nil => intro ih dup _; rfl
  | cons p rest ihr =>
    intro ih dup hag
    have hp : d1 p = d2 p := hag p (List.mem_cons_self p rest)
    have hrest : ∀ q ∈ rest, d1 q = d2 q :=
      fun q hq => hag q (List.mem_cons_of_mem _ hq)
    cases hd : d2 p with
    | none => simp [hash_loop, hp, hd]
    | some img => simp [hash_loop, hp, hd, ihr _ _ hrest]

lemma groupOf_len_le_one {fp : Path → Hash} {l : List Path}
    (hnd : (l.map fp).Nodup) (h : Hash) : (groupOf fp l h).length ≤ 1 := by
  induction l with
  | nil => simp [groupOf]
  | cons a l ihl =>
    rw [List.map_cons, List.nodup_cons] at hnd
    obtain ⟨hna, hnd2⟩ := hnd
    by_cases ha : fp a = h
    · have hfl : groupOf fp l h = [] := by
        by_contra hne
        obtain ⟨x, hx⟩ := List.exists_mem_of_ne_nil _ hne
        obtain ⟨hxl, hxh⟩ := List.mem_filter.1 hx
        have hfx : fp x = h := by simpa using hxh
        exact hna (by rw [ha, ← hfx]; exact List.mem_map_of_mem fp hxl)
      have hstep : groupOf fp (a :: l) h = a :: groupOf fp l h := by
        simp [groupOf, List.filter_cons, ha]
      rw [hstep, hfl]
      simp
    · have : groupOf fp (a :: l) h = groupOf fp l h := by
        simp [groupOf, List.filter_cons, ha]
      rw [this]
      exact ihl hnd2

lemma dup_nil_of_nodup_map {fp : Path → Hash} {paths : List Path} {dup : Dict}
    (I3 : ∀ kv ∈ dup, 2 ≤ (groupOf fp paths kv.1).length)
    (hnd : (paths.map fp).Nodup) : dup = [] := by
  cases dup with
  | nil => rfl
  | cons kv rest =>
    have h2 := I3 kv (List.mem_cons_self kv rest)
    have h1 := groupOf_len_le_one hnd kv.1
    omega

/-! ### Claims about hash_images -/

/-- C1: Grouper partition law: for every finite sequence of
pairwise-distinct decodable paths, the duplicates dict returned by
hash_images holds exactly the fingerprints occurring at least twice,
each bound to the encounter-ordered list of exactly the paths bearing
it; every group has at least two members; and the groups are pairwise
disjoint, so no path is in more than one group. -/
theorem C1_grouper_partition (algs : HashAlg → Image → Nat → Hash)
    (dec : Path → Image) (paths : List Path) (method : String) (alg : HashAlg)
    (hash_size : Nat) (hdisp : hash_dispatch method = some alg)
    (hnd : paths.Nodup) :
    ∃ ih dup,
      hash_images algs (fun p => some (dec p)) paths method hash_size =
        Except.ok (ih, dup) ∧
      GrouperLaw (fun q => algs alg (dec q) hash_size) paths dup := by
  obtain ⟨ih2, dup2, heq, hinv⟩ :=
    @hash_loop_ok (algs alg) hash_size dec paths [] [] [] (hashInv_nil _)
  rw [List.nil_append] at hinv
  obtain ⟨I1, I2, I3⟩ := hinv
  refine ⟨ih2, dup2, by simp [hash_images, traced_hash_images, hdisp, heq],
    ?_, ?_, ?_, ?_⟩
  · intro h
    rw [I2 h]
    by_cases hc : 2 ≤ (groupOf (fun q => algs alg (dec q) hash_size) paths h).length <;>
      simp [hc]
  · intro h g hg
    rw [I2 h] at hg
    by_cases hc : 2 ≤ (groupOf (fun q => algs alg (dec q) hash_size) paths h).length
    · rw [if_pos hc] at hg
      exact (Option.some.inj hg).symm
    · rw [if_neg hc] at hg
      cases hg
  · intro h g hg
    rw [I2 h] at hg
    by_cases hc : 2 ≤ (groupOf (fun q => algs alg (dec q) hash_size) paths h).length
    · rw [if_pos hc] at hg
      exact Option.some.inj hg ▸ hc
    · rw [if_neg hc] at hg
      cases hg
  · intro h1 h2 g1 g2 p hne hg1 hg2 hp1 hp2
    rw [I2 h1] at hg1
    rw [I2 h2] at hg2
    by_cases hc1 : 2 ≤ (groupOf (fun q => algs alg (dec q) hash_size) paths h1).length
    · by_cases hc2 : 2 ≤ (groupOf (fun q => algs alg (dec q) hash_size) paths h2).length
      · rw [if_pos hc1] at hg1
        rw [if_pos hc2] at hg2
        rw [← Option.some.inj hg1] at hp1
        rw [← Option.some.inj hg2] at hp2
        have e1 : algs alg (dec p) hash_size = h1 := by
          simpa using (List.mem_filter.1 hp1).2
        have e2 : algs alg (dec p) hash_size = h2 := by
          simpa using (List.mem_filter.1 hp2).2
        exact hne (e1 ▸ e2)
      · rw [if_neg hc2] at hg2
        cases hg2
    · rw [if_neg hc1] at hg1
      cases hg1

/-- C1 witness: a concrete two-path run where both paths share one
fingerprint. -/
theorem C1_grouper_partition_witness :
    hash_dispatch "phash" = some HashAlg.phash ∧
    (["a.jpg", "b.jpg"] : List Path).Nodup ∧
    (∃ ih dup,
      hash_images cAlgs (fun p => some (cDecT p)) ["a.jpg", "b.jpg"] "phash" 8 =
        Except.ok (ih, dup) ∧
      GrouperLaw (fun q => cAlgs HashAlg.phash (cDecT q) 8) ["a.jpg", "b.jpg"] dup) :=
  ⟨by decide, by decide,
    C1_grouper_partition cAlgs cDecT ["a.jpg", "b.jpg"] "phash" HashAlg.phash 8
      (by decide) (by decide)⟩

/-- C4: Decode failure is fatal and atomic: when some input path fails
to decode, hash_images raises a decode error naming a failing input
path, so no partial pair of dicts reaches the caller. -/
theorem C4_decode_error_fatal (algs : HashAlg → Image → Nat → Hash)
    (decode : Path → Option Image) (paths : List Path) (method : String)
    (alg : HashAlg) (hash_size : Nat) (hdisp : hash_dispatch method = some alg)
    (hfail : ∃ p ∈ paths, decode p = none) :
    ∃ q ∈ paths, decode q = none ∧
      hash_images algs decode paths method hash_size =
        Except.error (SieveError.decodeError q) := by
  obtain ⟨q, hq, hqn, heq⟩ :=
    @hash_loop_decode_error (algs alg) hash_size decode paths [] [] hfail
  exact ⟨q, hq, hqn, by simp [hash_images, traced_hash_images, hdisp, heq]⟩

/-- C4 witness: a run with one undecodable path aborts with a decode
error naming it. -/
theorem C4_decode_error_fatal_witness :
    hash_dispatch "ahash" = some HashAlg.ahash ∧
    (∃ p ∈ (["ok.jpg", "bad.gif"] : List Path), cDecBad p = none) ∧
    (∃ q ∈ (["ok.jpg", "bad.gif"] : List Path), cDecBad q = none ∧
      hash_images cAlgs cDecBad ["ok.jpg", "bad.gif"] "ahash" 8 =
        Except.error (SieveError.decodeError q)) :=
  ⟨by decide, by decide,
    C4_decode_error_fatal cAlgs cDecBad ["ok.jpg", "bad.gif"] "ahash"
      HashAlg.ahash 8 (by decide) (by decide)⟩

/-- C7: Determinism: two runs of hash_images over the same paths whose
decoders agree on every input path, with the same method name and hash
size, produce identical results, both the hash-to-paths dict and the
duplicates dict. -/
theorem C7_determinism (algs : HashAlg → Image → Nat → Hash)
    (d1 d2 : Path → Option Image) (paths : List Path) (method : String)
    (hash_size : Nat) (hag : ∀ p ∈ paths, d1 p = d2 p) :
    hash_images algs d1 paths method hash_size =
      hash_images algs d2 paths method hash_size := by
  cases hd : hash_dispatch method with
  | none => simp [hash_images, traced_hash_images, hd]
  | some alg =>
    simp [hash_images, traced_hash_images, hd, hash_loop_congr paths [] [] hag]

/-- C7 witness: two extensionally agreeing decoders on a one-path run. -/
theorem C7_determinism_witness :
    (∀ p ∈ (["a.jpg"] : List Path), cDecode p = cDec2 p) ∧
    hash_images cAlgs cDecode ["a.jpg"] "phash" 8 =
      hash_images cAlgs cDec2 ["a.jpg"] "phash" 8 :=
  ⟨by decide, C7_determinism cAlgs cDecode cDec2 ["a.jpg"] "phash" 8 (by decide)⟩

/-- C6: Empty and duplicate-free inputs are non-exceptional: on an
empty path list hash_images returns empty dicts without error; on any
decodable input with mutually distinct fingerprints the duplicates dict
is empty, and the run of main completes normally with no file marked or
removed, whatever the confirmation input. -/
theorem C6_empty_and_distinct (algs : HashAlg → Image → Nat → Hash)
    (dec : Path → Image) (paths : List Path) (method : String) (alg : HashAlg)
    (hash_size : Nat) (filter_mode confirm : String)
    (hdisp : hash_dispatch method = some alg)
    (hinj : (paths.map (fun q => algs alg (dec q) hash_size)).Nodup) :
    hash_images algs (fun p => some (dec p)) [] method hash_size =
      Except.ok ([], []) ∧
    (∃ ih, hash_images algs (fun p => some (dec p)) paths method hash_size =
      Except.ok (ih, [])) ∧
    (traced_sieve algs (fun p => some (dec p)) paths method hash_size
      filter_mode confirm).2 = Except.ok () ∧
    ((traced_sieve algs (fun p => some (dec p)) paths method hash_size
      filter_mode confirm).1.all (fun e => !e.isRemove)) = true := by
  obtain ⟨ih2, dup2, heq, hinv⟩ :=
    @hash_loop_ok (algs alg) hash_size dec paths [] [] [] (hashInv_nil _)
  rw [List.nil_append] at hinv
  obtain ⟨I1, I2, I3⟩ := hinv
  have hdup : dup2 = [] := dup_nil_of_nodup_map I3 hinj
  subst hdup
  have hhi : traced_hash_images algs (fun p => some (dec p)) paths method
      hash_size = (paths.map Event.imageOpen, Except.ok (ih2, [])) := by
    simp [traced_hash_images, hdisp, heq]
  refine ⟨?_, ⟨ih2, ?_⟩, ?_, ?_⟩
  · simp [hash_images, traced_hash_images, hdisp, hash_loop]
  · simp [hash_images, hhi]
  · by_cases hp : paths.isEmpty
    · simp [traced_sieve, hp]
    · simp [traced_sieve, hp, hhi]
  · by_cases hp : paths.isEmpty
    · simp [traced_sieve, hp]
    · simp [traced_sieve, hp, hhi, Event.isRemove, List.all_map, Function.comp]

/-- C6 witness: two paths with distinct fingerprints produce no
duplicate group and a clean run. -/
theorem C6_empty_and_distinct_witness :
    hash_dispatch "dhash" = some HashAlg.dhash ∧
    ((["a.jpg", "bb.jpg"] : List Path).map
      (fun q => cAlgsW HashAlg.dhash (cDecT q) 8)).Nodup ∧
    (hash_images cAlgsW (fun p => some (cDecT p)) [] "dhash" 8 =
      Except.ok ([], []) ∧
    (∃ ih, hash_images cAlgsW (fun p => some (cDecT p)) ["a.jpg", "bb.jpg"]
      "dhash" 8 = Except.ok (ih, [])) ∧
    (traced_sieve cAlgsW (fun p => some (cDecT p)) ["a.jpg", "bb.jpg"] "dhash" 8
      "resolution" "y").2 = Except.ok () ∧
    ((traced_sieve cAlgsW (fun p => some (cDecT p)) ["a.jpg", "bb.jpg"] "dhash" 8
      "resolution" "y").1.all (fun e => !e.isRemove)) = true) :=
  ⟨by decide, by decide,
    C6_empty_and_distinct cAlgsW cDecT ["a.jpg", "bb.jpg"] "dhash" HashAlg.dhash
      8 "resolution" "y" (by decide) (by decide)⟩

/-! ### Selector lemmas -/

lemma traced_max_res_spec (rf : Path → Nat) :
    ∀ (ps : List Path) (best : Path) (bres : Nat), bres = rf best →
      ∃ m, traced_max_res (fun p => some (rf p)) best bres ps =
          (ps.map Event.imageOpen, Except.ok m) ∧
        rf best ≤ rf m ∧ (∀ q ∈ ps, rf q ≤ rf m) ∧
        (m = best ∨ ∃ l1 l2, ps = l1 ++ m :: l2 ∧ rf best < rf m ∧
          ∀ q ∈ l1, rf q < rf m) := by
  intro ps
  induction ps with
  | nil =>
    intro best bres hb
    exact ⟨best, by simp [traced_max_res], le_refl _, by simp, Or.inl rfl⟩
  | cons p ps ihp =>
    intro best bres hb
    subst hb
    by_cases hlt : rf best < rf p
    · obtain ⟨m, heq, hbm, hall, hpos⟩ := ihp p (rf p) rfl
      refine ⟨m, ?_, le_trans (le_of_lt hlt) hbm, ?_, ?_⟩
      · simp [traced_max_res, hlt, heq]
      · intro q hq
        rcases List.mem_cons.1 hq with he | ht
        · rw [he]; exact hbm
        · exact hall q ht
      · rcases hpos with he | ⟨l1, l2, hsplit, hlt2, hl1⟩
        · exact Or.inr ⟨[], ps, by rw [he]; rfl, by rw [he]; exact hlt, by simp⟩
        · refine Or.inr ⟨p :: l1, l2, by rw [hsplit]; rfl, lt_trans hlt hlt2, ?_⟩
          intro q hq
          rcases List.mem_cons.1 hq with he2 | ht2
          · rw [he2]; exact hlt2
          · exact hl1 q ht2
    · obtain ⟨m, heq, hbm, hall, hpos⟩ := ihp best (rf best) rfl
      refine ⟨m, ?_, hbm, ?_, ?_⟩
      · simp [traced_max_res, hlt, heq]
      · intro q hq
        rcases List.mem_cons.1 hq with he | ht
        · rw [he]; exact le_trans (le_of_not_lt hlt) hbm
        · exact hall q ht
      · rcases hpos with he | ⟨l1, l2, hsplit, hlt2, hl1⟩
        · exact Or.inl he
        · refine Or.inr ⟨p :: l1, l2, by rw [hsplit]; rfl, hlt2, ?_⟩
          intro q hq
          rcases List.mem_cons.1 hq with he2 | ht2
          · rw [he2]; exact lt_of_le_of_lt (le_of_not_lt hlt) hlt2
          · exact hl1 q ht2

lemma list_remove_append_not_mem (x : Path) (l1 l2 : List Path) (hx : x ∉ l1) :
    list_remove x (l1 ++ x :: l2) = some (l1 ++ l2) := by
  induction l1 with
  | nil => simp [list_remove]
  | cons y ys ihy =>
    rw [List.mem_cons] at hx
    push_neg at hx
    obtain ⟨hxy, hxys⟩ := hx
    have hyx : ¬(y = x) := fun e => hxy e.symm
    simp [list_remove, hyx, ihy hxys]

lemma filter_duplicates_spec (rf : Path → Nat) (l : List Path) (hne : l ≠ []) :
    ∃ kept l1 l2,
      traced_filter_duplicates (fun p => some (rf p)) l "resolution" =
        (l.map Event.imageOpen, Except.ok (l1 ++ l2)) ∧
      l = l1 ++ kept :: l2 ∧
      (∀ q ∈ l, rf q ≤ rf kept) ∧
      (∀ q ∈ l1, rf q < rf kept) := by
  cases l with
  | nil => exact absurd rfl hne
  | cons p ps =>
    obtain ⟨m, heq, hbm, hall, hpos⟩ := traced_max_res_spec rf ps p (rf p) rfl
    rcases hpos with he | ⟨l1, l2, hsplit, hlt, hl1⟩
    · subst he
      refine ⟨m, [], ps, ?_, by simp, ?_, by simp⟩
      · simp [traced_filter_duplicates, heq, list_remove]
      · intro q hq
        rcases List.mem_cons.1 hq with he2 | ht
        · rw [he2]
        · exact hall q ht
    · have hnm : m ∉ p :: l1 := by
        intro hmem
        rcases List.mem_cons.1 hmem with he2 | ht
        · rw [he2] at hlt; exact absurd hlt (lt_irrefl _)
        · exact absurd (hl1 m ht) (lt_irrefl _)
      have hrm : list_remove m (p :: ps) = some ((p :: l1) ++ l2) := by
        rw [hsplit]
        have h0 := list_remove_append_not_mem m (p :: l1) l2 hnm
        simpa using h0
      refine ⟨m, p :: l1, l2, ?_, by rw [hsplit]; simp, ?_, ?_⟩
      · simp [traced_filter_duplicates, heq, hrm]
      · intro q hq
        rcases List.mem_cons.1 hq with he2 | ht
        · rw [he2]; exact le_of_lt hlt
        · exact hall q ht
      · intro q hq
        rcases List.mem_cons.1 hq with he2 | ht
        · rw [he2]; exact hlt
        · exact hl1 q ht

/-! ### Claims about filter_duplicates -/

/-- C2: Selector law under the resolution policy: on a group of at
least two decodable paths, filter_duplicates returns the group minus
exactly one member; the retained member has the greatest pixel count in
the group, and every member seen before it has a strictly smaller pixel
count, so ties go to the first-seen member and the result is
deterministic. -/
theorem C2_selector_resolution (rf : Path → Nat) (l : List Path)
    (hlen : 2 ≤ l.length) :
    ∃ kept l1 l2,
      filter_duplicates (fun p => some (rf p)) l "resolution" =
        Except.ok (l1 ++ l2) ∧
      l = l1 ++ kept :: l2 ∧
      (∀ q ∈ l, rf q ≤ rf kept) ∧
      (∀ q ∈ l1, rf q < rf kept) := by
  have hne : l ≠ [] := by
    intro h
    rw [h] at hlen
    simp at hlen
  obtain ⟨kept, l1, l2, heq, hsplit, hall, hl1⟩ := filter_duplicates_spec rf l hne
  exact ⟨kept, l1, l2, by simp [filter_duplicates, heq], hsplit, hall, hl1⟩

/-- C2 witness: a two-member group with distinct resolutions. -/
theorem C2_selector_resolution_witness :
    2 ≤ (["a", "bb"] : List Path).length ∧
    (∃ kept l1 l2,
      filter_duplicates (fun p => some p.length) ["a", "bb"] "resolution" =
        Except.ok (l1 ++ l2) ∧
      (["a", "bb"] : List Path) = l1 ++ kept :: l2 ∧
      (∀ q ∈ (["a", "bb"] : List Path), q.length ≤ kept.length) ∧
      (∀ q ∈ l1, q.length < kept.length)) :=
  ⟨by decide,
    C2_selector_resolution (fun p => p.length) ["a", "bb"] (by decide)⟩

lemma traced_filter_all_spec (rf : Path → Nat) :
    ∀ (groups : List (Hash × List Path)),
      (∀ g ∈ groups, g.2 ≠ []) →
      ∃ trash : List (List Path),
        (traced_filter_all (fun p => some (rf p)) groups "resolution").2 =
          Except.ok trash ∧
        List.Forall₂ (fun (g : Hash × List Path) (t : List Path) =>
          ∃ kept l1 l2, g.2 = l1 ++ kept :: l2 ∧ t = l1 ++ l2) groups trash := by
  intro groups
  induction groups with
  | nil => exact fun _ => ⟨[], by simp [traced_filter_all], List.Forall₂.nil⟩
  | cons g gs ihg =>
    intro hne
    obtain ⟨kept, l1, l2, heq, hsplit, hall, hl1⟩ :=
      filter_duplicates_spec rf g.2 (hne g (List.mem_cons_self g gs))
    obtain ⟨trash, heq2, hrel⟩ :=
      ihg (fun q hq => hne q (List.mem_cons_of_mem _ hq))
    refine ⟨(l1 ++ l2) :: trash, ?_, List.Forall₂.cons ⟨kept, l1, l2, hsplit, rfl⟩ hrel⟩
    simp [traced_filter_all, heq, heq2]

lemma trash_flatten_subset {groups : List (Hash × List Path)}
    {trash : List (List Path)}
    (hrel : List.Forall₂ (fun (g : Hash × List Path) (t : List Path) =>
      ∃ kept l1 l2, g.2 = l1 ++ kept :: l2 ∧ t = l1 ++ l2) groups trash) :
    ∀ x ∈ trash.flatten, x ∈ (groups.map Prod.snd).flatten := by
  induction hrel with
  | nil => simp
  | cons hgt hrel2 ih =>
    obtain ⟨kept, l1, l2, hsplit, ht⟩ := hgt
    intro x hx
    rw [List.flatten_cons] at hx
    rw [List.map_cons, List.flatten_cons]
    rcases List.mem_append.1 hx with h1 | h2
    · apply List.mem_append_left
      rw [hsplit]
      rw [ht] at h1
      rcases List.mem_append.1 h1 with ha | hb
      · exact List.mem_append_left _ ha
      · exact List.mem_append_right _ (List.mem_cons_of_mem _ hb)
    · exact List.mem_append_right _ (ih x h2)

lemma trash_flatten_nodup {groups : List (Hash × List Path)}
    {trash : List (List Path)}
    (hrel : List.Forall₂ (fun (g : Hash × List Path) (t : List Path) =>
      ∃ kept l1 l2, g.2 = l1 ++ kept :: l2 ∧ t = l1 ++ l2) groups trash)
    (hnd : (groups.map Prod.snd).flatten.Nodup) : trash.flatten.Nodup := by
  induction hrel with
  | nil => simp
  | cons hgt hrel2 ih =>
    obtain ⟨kept, l1, l2, hsplit, ht⟩ := hgt
    rw [List.map_cons, List.flatten_cons, List.nodup_append] at hnd
    obtain ⟨hnd1, hnd2, hdisj⟩ := hnd
    rw [List.flatten_cons, List.nodup_append]
    have hsub : ∀ x, x ∈ l1 ++ l2 → x ∈ l1 ++ kept :: l2 := by
      intro x hx
      rcases List.mem_append.1 hx with ha | hb
      · exact List.mem_append_left _ ha
      · exact List.mem_append_right _ (List.mem_cons_of_mem _ hb)
    refine ⟨?_, ih hnd2, ?_⟩
    · rw [ht]
      have hsl : (l1 ++ l2).Sublist (l1 ++ kept :: l2) :=
        List.Sublist.append_left (List.sublist_cons_self kept l2) l1
      exact List.Nodup.sublist hsl (hsplit ▸ hnd1)
    · intro x hx hx2
      have hxg : x ∈ l1 ++ kept :: l2 := hsub x (ht ▸ hx)
      exact hdisj (hsplit ▸ hxg) (trash_flatten_subset hrel2 x hx2)

/-- C5: DeletionSet invariant: over groups whose members are pairwise
distinct across the whole run, the per-group filtering succeeds, every
trash list is its group minus exactly one member (the retained
survivor), and the concatenated deletion set never contains a path
twice. -/
theorem C5_deletion_set (rf : Path → Nat) (groups : List (Hash × List Path))
    (hnd : (groups.map Prod.snd).flatten.Nodup)
    (hlen : ∀ g ∈ groups, 2 ≤ g.2.length) :
    ∃ trash : List (List Path),
      filter_all (fun p => some (rf p)) groups "resolution" =
        Except.ok trash ∧
      List.Forall₂ (fun (g : Hash × List Path) (t : List Path) =>
        ∃ kept l1 l2, g.2 = l1 ++ kept :: l2 ∧ t = l1 ++ l2) groups trash ∧
      trash.flatten.Nodup := by
  have hne : ∀ g ∈ groups, g.2 ≠ [] := by
    intro g hg he
    have := hlen g hg
    rw [he] at this
    simp at this
  obtain ⟨trash, heq, hrel⟩ := traced_filter_all_spec rf groups hne
  exact ⟨trash, by simpa [filter_all] using heq, hrel,
    trash_flatten_nodup hrel hnd⟩

/-- C5 witness: two disjoint groups of two members each. -/
theorem C5_deletion_set_witness :
    (([(0, ["a", "bb"]), (1, ["c", "dd"])] :
      List (Hash × List Path)).map Prod.snd).flatten.Nodup ∧
    (∀ g ∈ ([(0, ["a", "bb"]), (1, ["c", "dd"])] : List (Hash × List Path)),
      2 ≤ g.2.length) ∧
    (∃ trash : List (List Path),
      filter_all (fun p => some p.length)
        [(0, ["a", "bb"]), (1, ["c", "dd"])] "resolution" =
        Except.ok trash ∧
      List.Forall₂ (fun (g : Hash × List Path) (t : List Path) =>
        ∃ kept l1 l2, g.2 = l1 ++ kept :: l2 ∧ t = l1 ++ l2)
        [(0, ["a", "bb"]), (1, ["c", "dd"])] trash ∧
      trash.flatten.Nodup) :=
  ⟨by decide, by decide,
    C5_deletion_set (fun p => p.length) [(0, ["a", "bb"]), (1, ["c", "dd"])]
      (by decide) (by decide)⟩

/-- C9: filter_duplicates mutates its argument in place: under the
resolution mode the returned reference is the very same list object
that was passed in, its stored contents now missing the first
maximum-resolution member; every other list object in the store is
untouched, which is why main passes the slice copy paths[:] to keep the
original group intact. -/
theorem C9_in_place_mutation (rf : Path → Nat) (store : ListStore) (r : Nat)
    (hne : store r ≠ []) :
    ∃ store2 kept l1 l2,
      filter_duplicates_ref (fun p => some (rf p)) store r "resolution" =
        Except.ok (store2, r) ∧
      store r = l1 ++ kept :: l2 ∧
      store2 r = l1 ++ l2 ∧
      (∀ q ∈ store r, rf q ≤ rf kept) ∧
      (∀ q ∈ l1, rf q < rf kept) ∧
      (∀ q, q ≠ r → store2 q = store q) := by
  obtain ⟨kept, l1, l2, heq, hsplit, hall, hl1⟩ :=
    filter_duplicates_spec rf (store r) hne
  refine ⟨fun q => if q = r then l1 ++ l2 else store q, kept, l1, l2, ?_,
    hsplit, by simp, hall, hl1, fun q hq => by simp [hq]⟩
  simp [filter_duplicates_ref, heq]

/-- C9 witness: a store holding one two-member list at reference 0. -/
theorem C9_in_place_mutation_witness :
    cStore 0 ≠ [] ∧
    (∃ store2 kept l1 l2,
      filter_duplicates_ref (fun p => some p.length) cStore 0 "resolution" =
        Except.ok (store2, 0) ∧
      cStore 0 = l1 ++ kept :: l2 ∧
      store2 0 = l1 ++ l2 ∧
      (∀ q ∈ cStore 0, q.length ≤ kept.length) ∧
      (∀ q ∈ l1, q.length < kept.length) ∧
      (∀ q, q ≠ 0 → store2 q = cStore q)) :=
  ⟨by decide,
    C9_in_place_mutation (fun p => p.length) cStore 0 (by decide)⟩

/-! ### Claims about configuration errors and destructive effects -/

/-- C3 counterexample: with a valid hashing method, an unknown filter
mode and one duplicate pair present, the run aborts with the
invalid-mode error only after both images were opened and hashed, so
the unknown policy name is not detected before any image is processed. -/
theorem C3_counterexample :
    (traced_sieve cAlgs cDecode ["a.jpg", "b.jpg"] "phash" 8 "bogus" "n").2 =
      Except.error (SieveError.invalidMode "bogus") ∧
    (traced_sieve cAlgs cDecode ["a.jpg", "b.jpg"] "phash" 8 "bogus" "n").1 =
      [Event.imageOpen "a.jpg", Event.imageOpen "b.jpg"] := by
  constructor <;> decide

/-- C3 amended: an unknown hashing method is detected before any image
is opened: when images were found, the run aborts at once with the
invalid-method error and an empty trace.  An unknown filter mode is
detected only after hashing: when hashing succeeds with at least one
duplicate group, the run aborts with the invalid-mode error naming the
offending value and a trace of exactly the hashing decodes; and when no
duplicate group exists the run ends normally, never checking the mode. -/
theorem C3_config_errors (algs : HashAlg → Image → Nat → Hash)
    (decode : Path → Option Image) (image_paths : List Path) (method : String)
    (hash_size : Nat) (filter_mode confirm : String) :
    (image_paths ≠ [] → hash_dispatch method = none →
      traced_sieve algs decode image_paths method hash_size filter_mode
        confirm = ([], Except.error (SieveError.invalidMethod method))) ∧
    (∀ ev ih dup,
      traced_hash_images algs decode image_paths method hash_size =
        (ev, Except.ok (ih, dup)) → image_paths ≠ [] → dup ≠ [] →
      filter_mode ≠ "resolution" →
      traced_sieve algs decode image_paths method hash_size filter_mode
        confirm = (ev, Except.error (SieveError.invalidMode filter_mode))) ∧
    (∀ ev ih,
      traced_hash_images algs decode image_paths method hash_size =
        (ev, Except.ok (ih, [])) →
      (traced_sieve algs decode image_paths method hash_size filter_mode
        confirm).2 = Except.ok ()) := by
  refine ⟨?_, ?_, ?_⟩
  · intro hne hd
    have hp : image_paths.isEmpty = false := by
      cases image_paths with
      | nil => exact absurd rfl hne
      | cons a l => rfl
    simp [traced_sieve, hp, traced_hash_images, hd]
  · intro ev ih dup hhi hne hdup hmode
    have hp : image_paths.isEmpty = false := by
      cases image_paths with
      | nil => exact absurd rfl hne
      | cons a l => rfl
    cases dup with
    | nil => exact absurd rfl hdup
    | cons g gs =>
      simp [traced_sieve, hp, hhi, traced_filter_all,
        traced_filter_duplicates, hmode]
  · intro ev ih hhi
    by_cases hp : image_paths.isEmpty
    · simp [traced_sieve, hp]
    · simp [traced_sieve, hp, hhi]

/-- C3 witness: the three amended behaviors at concrete runs. -/
theorem C3_config_errors_witness :
    traced_sieve cAlgs cDecode ["a.jpg"] "bogus" 8 "resolution" "n" =
      ([], Except.error (SieveError.invalidMethod "bogus")) ∧
    traced_sieve cAlgs cDecode ["a.jpg", "b.jpg"] "phash" 8 "bogus" "n" =
      ([Event.imageOpen "a.jpg", Event.imageOpen "b.jpg"],
        Except.error (SieveError.invalidMode "bogus")) ∧
    (traced_sieve cAlgsW (fun p => some (cDecT p)) ["a.jpg", "bb.jpg"] "phash"
      8 "resolution" "n").2 = Except.ok () :=
  ⟨(C3_config_errors cAlgs cDecode ["a.jpg"] "bogus" 8 "resolution" "n").1
      (by decide) (by decide),
    (C3_config_errors cAlgs cDecode ["a.jpg", "b.jpg"] "phash" 8 "bogus"
      "n").2.1 [Event.imageOpen "a.jpg", Event.imageOpen "b.jpg"]
      [(0, ["a.jpg", "b.jpg"])] [(0, ["a.jpg", "b.jpg"])]
      (by decide) (by decide) (by decide) (by decide),
    (C3_config_errors cAlgsW (fun p => some (cDecT p)) ["a.jpg", "bb.jpg"]
      "phash" 8 "resolution" "n").2.2
      [Event.imageOpen "a.jpg", Event.imageOpen "bb.jpg"]
      [(5, ["a.jpg"]), (6, ["bb.jpg"])] (by decide)⟩

/-! ### C8: no destructive effects outside the confirmed executor -/

lemma traced_hash_images_no_remove (algs : HashAlg → Image → Nat → Hash)
    (decode : Path → Option Image) (image_paths : List Path) (method : String)
    (hash_size : Nat) :
    ((traced_hash_images algs decode image_paths method hash_size).1.all
      (fun e => !e.isRemove)) = true := by
  cases hd : hash_dispatch method with
  | none => simp [traced_hash_images, hd]
  | some alg =>
    have h1 := @hash_loop_no_remove (algs alg) hash_size decode image_paths [] []
    simp [traced_hash_images, hd] at h1 ⊢
    exact h1

lemma traced_max_res_no_remove (res : Path → Option Nat) :
    ∀ (ps : List Path) (best : Path) (bres : Nat),
      ((traced_max_res res best bres ps).1.all (fun e => !e.isRemove)) = true := by
  intro ps
  induction ps with
  | nil => intro best bres; simp [traced_max_res]
  | cons p ps ihp =>
    intro best bres
    cases hr : res p with
    | none => simp [traced_max_res, hr, Event.isRemove]
    | some r =>
      have h2 := ihp (if bres < r then p else best) (if bres < r then r else bres)
      simp [traced_max_res, hr, Event.isRemove] at h2 ⊢
      exact h2

lemma traced_filter_duplicates_no_remove (res : Path → Option Nat)
    (dups : List Path) (mode : String) :
    ((traced_filter_duplicates res dups mode).1.all
      (fun e => !e.isRemove)) = true := by
  by_cases hm : mode = "resolution"
  · subst hm
    cases dups with
    | nil => simp [traced_filter_duplicates]
    | cons p ps =>
      cases hr : res p with
      | none => simp [traced_filter_duplicates, hr, Event.isRemove]
      | some r =>
        have h2 := traced_max_res_no_remove res ps p r
        cases ho : (traced_max_res res p r ps).2 with
        | error e =>
          simp [traced_filter_duplicates, hr, ho, Event.isRemove] at h2 ⊢
          exact h2
        | ok best =>
          cases hrm : list_remove best (p :: ps) with
          | none =>
            simp [traced_filter_duplicates, hr, ho, hrm, Event.isRemove] at h2 ⊢
            exact h2
          | some remaining =>
            simp [traced_filter_duplicates, hr, ho, hrm, Event.isRemove] at h2 ⊢
            exact h2
  · simp [traced_filter_duplicates, hm]

lemma traced_filter_all_no_remove (res : Path → Option Nat)
    (mode : String) :
    ∀ (groups : List (Hash × List Path)),
      ((traced_filter_all res groups mode).1.all (fun e => !e.isRemove)) = true := by
  intro groups
  induction groups with
  | nil => simp [traced_filter_all]
  | cons g gs ihg =>
    have h1 := traced_filter_duplicates_no_remove res g.2 mode
    cases ho : (traced_filter_duplicates res g.2 mode).2 with
    | error e =>
      simp [traced_filter_all, ho, Event.isRemove] at h1 ⊢
      exact h1
    | ok t =>
      cases ho2 : (traced_filter_all res gs mode).2 with
      | error e =>
        simp [traced_filter_all, ho, ho2, Event.isRemove, List.all_append] at h1 ihg ⊢
        exact ⟨h1, ihg⟩
      | ok ts =>
        simp [traced_filter_all, ho, ho2, Event.isRemove, List.all_append] at h1 ihg ⊢
        exact ⟨h1, ihg⟩

/-- C8: The core never performs destructive I/O: the traces of
hash_images and filter_duplicates contain removal events for no inputs
at all; file removal lives only in the executor tail of main, and when
the confirmation input, left-stripped and lowercased, does not start
with the letter y, the whole run performs no removal either. -/
theorem C8_no_destructive_io (algs : HashAlg → Image → Nat → Hash)
    (decode : Path → Option Image) (image_paths : List Path) (method : String)
    (hash_size : Nat) (res : Path → Option Nat) (dups : List Path)
    (filter_mode confirm : String) :
    ((traced_hash_images algs decode image_paths method hash_size).1.all
      (fun e => !e.isRemove)) = true ∧
    ((traced_filter_duplicates res dups filter_mode).1.all
      (fun e => !e.isRemove)) = true ∧
    (confirm_accepts confirm = false →
      ((traced_sieve algs decode image_paths method hash_size filter_mode
        confirm).1.all (fun e => !e.isRemove)) = true) := by
  refine ⟨traced_hash_images_no_remove algs decode image_paths method hash_size,
    traced_filter_duplicates_no_remove res dups filter_mode, ?_⟩
  intro hconf
  have h1 := traced_hash_images_no_remove algs decode image_paths method hash_size
  by_cases hp : image_paths.isEmpty
  · simp [traced_sieve, hp]
  · cases hhi : (traced_hash_images algs decode image_paths method hash_size).2 with
    | error e =>
      simp [traced_sieve, hp, hhi, Event.isRemove] at h1 ⊢
      exact h1
    | ok st =>
      by_cases hde : st.2.isEmpty
      · simp [traced_sieve, hp, hhi, hde, Event.isRemove] at h1 ⊢
        exact h1
      · have h2 := traced_filter_all_no_remove
          (fun p => (decode p).map (fun img => img.width * img.height))
          filter_mode st.2
        cases hfa : (traced_filter_all
            (fun p => (decode p).map (fun img => img.width * img.height))
            st.2 filter_mode).2 with
        | error e =>
          simp [traced_sieve, hp, hhi, hde, hfa, Event.isRemove,
            List.all_append] at h1 h2 ⊢
          exact ⟨h1, h2⟩
        | ok trash =>
          by_cases htr : trash.isEmpty
          · simp [traced_sieve, hp, hhi, hde, hfa, htr, Event.isRemove,
              List.all_append] at h1 h2 ⊢
            exact ⟨h1, h2⟩
          · simp [traced_sieve, hp, hhi, hde, hfa, htr, hconf, Event.isRemove,
              List.all_append] at h1 h2 ⊢
            exact ⟨h1, h2⟩

/-- C8 witness: a declined confirmation on a run with one duplicate
pair leaves the trace free of removals. -/
theorem C8_no_destructive_io_witness :
    confirm_accepts "n" = false ∧
    ((traced_sieve cAlgs cDecode ["a.jpg", "b.jpg"] "phash" 8 "resolution"
      "n").1.all (fun e => !e.isRemove)) = true :=
  ⟨by decide,
    (C8_no_destructive_io cAlgs cDecode ["a.jpg", "b.jpg"] "phash" 8
      (fun _ => some 1) [] "resolution" "n").2.2 (by decide)⟩

/-- C10: find_images matches extensions case-sensitively: it collects
exactly the files ending in one of the five lowercase raster
extensions, so an uppercase extension such as .JPG is never enumerated;
and with recursive false only the first directory of the walk is
consumed, every later directory being ignored. -/
theorem C10_find_images (root : String) (files : List String)
    (rest : List (String × List String)) :
    find_images ((root, files) :: rest) false =
      (files.filter has_image_ext).map (fun file => path_join root file) ∧
    has_image_ext "photo.jpg" = true ∧
    has_image_ext "photo.jpeg" = true ∧
    has_image_ext "photo.png" = true ∧
    has_image_ext "photo.bmp" = true ∧
    has_image_ext "photo.gif" = true ∧
    has_image_ext "photo.JPG" = false ∧
    has_image_ext "photo.Jpeg" = false ∧
    has_image_ext "photo.PNG" = false ∧
    has_image_ext "photo.txt" = false := by
  refine ⟨?_, by decide, by decide, by decide, by decide, by decide,
    by decide, by decide, by decide, by decide⟩
  simp [find_images]

end Imgsieve
